import Mathlib

/-!
Verification of the XML escaping core of `xml-rs` (`src/escape.rs`).

The Rust source is shallowly embedded here:
* Rust strings are modelled as `List Char` (their sequence of decoded
  characters); byte offsets are modelled through `Char.utf8Size`, with
  `utf8Len` computing the UTF-8 byte length of a character list and
  `utf8Encode` computing the actual UTF-8 byte sequence (bytes as `Nat`).
* `Value`, `Process`, the two dispatch functions, `Process::process`,
  `Process::into_result`, `escape_str`, `escape_str_attribute` and
  `escape_str_pcdata` are translated definition by definition.
* Rust's string slicing `&b[..i]` panics when `i` is not a character
  boundary; this fallibility is kept: `byteTake` returns an `Option`, and
  `Process.process` (hence the whole pipeline) is `Option`-valued.
* The `HashMap<char, &'static str>` of extra substitutions is modelled as a
  function `Char → Option (List Char)`, its pointwise lookup behaviour.
-/

namespace XmlEscape

/-- The caller-supplied extra mapping: models `&HashMap<char, &'static str>`,
whose only use in the source is `extra.get(&c)`. -/
abbrev Extra := Char → Option (List Char)

/-- The classifier decision, from the source's `enum Value { Char(char), Str(&'static str) }`. -/
inductive Value where
  | Char : Char → Value
  | Str : List Char → Value
deriving DecidableEq

/-- Whether a decision is a pass-through (`Char`, the spec's *Keep*) rather
than a substitution (`Str`, the spec's *Replace*). -/
def Value.isKeep : Value → Bool
  | .Char _ => true
  | .Str _ => false

/-- `Value::dispatch_for_attribute` from `src/escape.rs`: a sequential match
on the seven fixed attribute escapes, then the extra mapping, then pass-through. -/
def dispatch_for_attribute (c : Char) (extra : Extra) : Value :=
  if c = '<' then .Str "&lt;".data
  else if c = '>' then .Str "&gt;".data
  else if c = '"' then .Str "&quot;".data
  else if c = '\'' then .Str "&apos;".data
  else if c = '&' then .Str "&amp;".data
  else if c = '\n' then .Str "&#xA;".data
  else if c = '\r' then .Str "&#xD;".data
  else match extra c with
    | some value => .Str value
    | none => .Char c

/-- `Value::dispatch_for_pcdata` from `src/escape.rs`: only `<` and `&` are
fixed escapes, then the extra mapping, then pass-through. -/
def dispatch_for_pcdata (c : Char) (extra : Extra) : Value :=
  if c = '<' then .Str "&lt;".data
  else if c = '&' then .Str "&amp;".data
  else match extra c with
    | some value => .Str value
    | none => .Char c

/-- UTF-8 byte length of a character list; models Rust `str::len` on the
string holding these characters. -/
def utf8Len (s : List Char) : Nat :=
  (s.map Char.utf8Size).sum

/-- The UTF-8 encoding of one character, bytes as `Nat`.  Branches on
`Char.utf8Size`, whose value (1–4) selects the standard encoding shape. -/
def charUtf8 (c : Char) : List Nat :=
  let n := c.toNat
  match c.utf8Size with
  | 1 => [n]
  | 2 => [0xC0 + n / 64, 0x80 + n % 64]
  | 3 => [0xE0 + n / 4096, 0x80 + n / 64 % 64, 0x80 + n % 64]
  | _ => [0xF0 + n / 262144, 0x80 + n / 4096 % 64, 0x80 + n / 64 % 64, 0x80 + n % 64]

/-- UTF-8 encoding of a character list: the byte content of the Rust string. -/
def utf8Encode (s : List Char) : List Nat :=
  s.flatMap charUtf8

/-- Models Rust string slicing `&b[..i]` at character granularity: returns
the characters whose encoding occupies exactly the first `i` bytes, or `none`
when `i` is not a character boundary or exceeds the length (Rust panics). -/
def byteTake : List Char → Nat → Option (List Char)
  | _, 0 => some []
  | [], _ + 1 => none
  | c :: cs, i + 1 =>
    if c.utf8Size ≤ i + 1 then
      (byteTake cs (i + 1 - c.utf8Size)).map (fun t => c :: t)
    else none

/-- The accumulator, from the source's `enum Process<'a> { Borrowed(&'a str), Owned(String) }`.
`Borrowed` holds the full original input that the reference points into. -/
inductive Process where
  | Borrowed : List Char → Process
  | Owned : List Char → Process
deriving DecidableEq

/-- `Process::process` from `src/escape.rs`.  On `Str s` while `Borrowed b`
the source slices `&b[..i]` (fallible, hence the `Option`), appends `s`, and
becomes `Owned`; on `Str s` while `Owned` it appends `s`; on `Char c` it is a
no-op while `Borrowed` and appends `c` while `Owned`. -/
def Process.process (p : Process) (next : Nat × Value) : Option Process :=
  match next.2 with
  | .Str s =>
    match p with
    | .Owned o => some (.Owned (o ++ s))
    | .Borrowed b => (byteTake b next.1).map (fun r => .Owned (r ++ s))
  | .Char c =>
    match p with
    | .Borrowed b => some (.Borrowed b)
    | .Owned o => some (.Owned (o ++ [c]))

/-- The capacity requested by `String::with_capacity(b.len() + s.len())` at
the `Borrowed → Owned` transition in `Process::process`, in bytes. -/
def withCapacityRequest (b s : List Char) : Nat :=
  utf8Len b + utf8Len s

/-- The result type, models `Cow<'a, str>`. -/
inductive Cow where
  | Borrowed : List Char → Cow
  | Owned : List Char → Cow
deriving DecidableEq

/-- `Process::into_result` from `src/escape.rs`. -/
def Process.into_result : Process → Cow
  | .Borrowed b => .Borrowed b
  | .Owned o => .Owned o

/-- The character content of the result, whichever variant it is (what a Rust
caller observes by dereferencing the `Cow`). -/
def Cow.content : Cow → List Char
  | .Borrowed b => b
  | .Owned o => o

/-- The `Extend` impl for `Process`: the loop `for v in it { self.process(v) }`,
feeding each `(offset, Value)` pair through `Process::process` in order.
`Option`-valued because each step can hit the slicing panic. -/
def Process.extend : Process → List (Nat × Value) → Option Process
  | p, [] => some p
  | p, v :: rest =>
    match p.process v with
    | none => none
    | some q => Process.extend q rest

/-- `str::char_indices` starting from byte offset `i`: each character paired
with the byte offset at which it starts. -/
def charIndicesFrom (i : Nat) : List Char → List (Nat × Char)
  | [] => []
  | c :: cs => (i, c) :: charIndicesFrom (i + c.utf8Size) cs

/-- `s.char_indices()`: characters of `s` with their byte offsets. -/
def char_indices (s : List Char) : List (Nat × Char) :=
  charIndicesFrom 0 s

/-- `escape_str` from `src/escape.rs`: start `Borrowed` on the whole input,
extend with the dispatched character stream, convert to the result. -/
def escape_str (s : List Char) (dispatch : Char → Extra → Value) (extra : Extra) :
    Option Cow :=
  (Process.extend (.Borrowed s)
    ((char_indices s).map (fun ic => (ic.1, dispatch ic.2 extra)))).map
    Process.into_result

/-- `escape_str_attribute` from `src/escape.rs`. -/
def escape_str_attribute (s : List Char) (extra : Extra) : Option Cow :=
  escape_str s dispatch_for_attribute extra

/-- `escape_str_pcdata` from `src/escape.rs`. -/
def escape_str_pcdata (s : List Char) (extra : Extra) : Option Cow :=
  escape_str s dispatch_for_pcdata extra

/-! Spec-side vocabulary, used only to state claims. -/

/-- The escaping context of spec §3: attribute value vs. PCDATA. -/
inductive Context where
  | Attribute : Context
  | PCDATA : Context
deriving DecidableEq

/-- The fixed substitution table of each context, as listed in spec §4.1. -/
def fixedSubs : Context → List (Char × List Char)
  | .Attribute =>
    [('<', "&lt;".data), ('>', "&gt;".data), ('"', "&quot;".data),
     ('\'', "&apos;".data), ('&', "&amp;".data), ('\n', "&#xA;".data),
     ('\r', "&#xD;".data)]
  | .PCDATA => [('<', "&lt;".data), ('&', "&amp;".data)]

/-- The classifier contract of spec §4.1, written from the spec's words:
look the character up in the context's fixed set first, then in the extra
mapping, otherwise keep it. -/
def classify (c : Char) (ctx : Context) (extra : Extra) : Value :=
  match (fixedSubs ctx).lookup c with
  | some r => .Str r
  | none =>
    match extra c with
    | some v => .Str v
    | none => .Char c

/-- `c` is one of the seven fixed attribute-context escape characters. -/
def isAttrEscaped (c : Char) : Bool :=
  c = '<' || c = '>' || c = '"' || c = '\'' || c = '&' || c = '\n' || c = '\r'

/-- `c` is one of the two fixed PCDATA-context escape characters. -/
def isPcdataEscaped (c : Char) : Bool :=
  c = '<' || c = '&'

/-- The characters appended to an owned buffer by a decision stream. -/
def appendedOf (l : List (Nat × Value)) : List Char :=
  l.flatMap (fun x =>
    match x.2 with
    | .Char c => [c]
    | .Str s => s)

/-! ### Helper lemmas -/

theorem utf8Len_nil : utf8Len [] = 0 := rfl

theorem utf8Len_cons (c : Char) (s : List Char) :
    utf8Len (c :: s) = c.utf8Size + utf8Len s := by
  simp [utf8Len]

theorem utf8Len_append (a b : List Char) :
    utf8Len (a ++ b) = utf8Len a + utf8Len b := by
  simp [utf8Len]

theorem utf8Size_cases (c : Char) :
    c.utf8Size = 1 ∨ c.utf8Size = 2 ∨ c.utf8Size = 3 ∨ c.utf8Size = 4 := by
  unfold Char.utf8Size
  dsimp only
  split_ifs <;> simp

theorem charUtf8_length (c : Char) : (charUtf8 c).length = c.utf8Size := by
  rcases utf8Size_cases c with h | h | h | h <;>
    · unfold charUtf8
      rw [h]
      simp

theorem utf8Encode_nil : utf8Encode [] = [] := rfl

theorem utf8Encode_cons (c : Char) (s : List Char) :
    utf8Encode (c :: s) = charUtf8 c ++ utf8Encode s := by
  simp [utf8Encode]

theorem utf8Encode_append (a b : List Char) :
    utf8Encode (a ++ b) = utf8Encode a ++ utf8Encode b := by
  simp [utf8Encode]

theorem utf8Encode_length (s : List Char) :
    (utf8Encode s).length = utf8Len s := by
  induction s with
  | nil => rfl
  | cons c cs ih =>
    rw [utf8Encode_cons, utf8Len_cons, List.length_append, charUtf8_length, ih]

theorem byteTake_zero (l : List Char) : byteTake l 0 = some [] := by
  cases l <;> rfl

/-- Taking `utf8Len a` bytes out of `a ++ b` lands exactly on the boundary
after `a`: the slice is `a` itself, whole characters only. -/
theorem byteTake_boundary (a b : List Char) :
    byteTake (a ++ b) (utf8Len a) = some a := by
  induction a with
  | nil => rw [List.nil_append, utf8Len_nil, byteTake_zero]
  | cons c cs ih =>
    have hpos := Char.utf8Size_pos c
    have hlen : utf8Len (c :: cs) = (utf8Len (c :: cs) - 1) + 1 := by
      rw [utf8Len_cons]; omega
    rw [List.cons_append, hlen]
    rw [byteTake]
    rw [if_pos (by rw [utf8Len_cons] at hlen ⊢; omega)]
    have harg : utf8Len (c :: cs) - 1 + 1 - c.utf8Size = utf8Len cs := by
      rw [utf8Len_cons]; omega
    rw [harg, ih]
    rfl

theorem extend_nil (p : Process) : Process.extend p [] = some p := rfl

theorem extend_cons (p : Process) (v : Nat × Value) (rest : List (Nat × Value)) :
    Process.extend p (v :: rest) =
      match p.process v with
      | none => none
      | some q => Process.extend q rest := rfl

theorem process_borrowed_char (b : List Char) (i : Nat) (c : Char) :
    Process.process (.Borrowed b) (i, .Char c) = some (.Borrowed b) := rfl

theorem process_owned_char (o : List Char) (i : Nat) (c : Char) :
    Process.process (.Owned o) (i, .Char c) = some (.Owned (o ++ [c])) := rfl

theorem process_owned_str (o s : List Char) (i : Nat) :
    Process.process (.Owned o) (i, .Str s) = some (.Owned (o ++ s)) := rfl

theorem process_borrowed_str (b s : List Char) (i : Nat) :
    Process.process (.Borrowed b) (i, .Str s) =
      (byteTake b i).map (fun r => .Owned (r ++ s)) := rfl

theorem extend_cons_some (p q : Process) (v : Nat × Value)
    (rest : List (Nat × Value)) (h : p.process v = some q) :
    Process.extend p (v :: rest) = Process.extend q rest := by
  rw [extend_cons, h]

/-- An owned accumulator stays owned and only ever appends: extending from
`Owned o` always succeeds and yields `Owned (o ++ appendedOf l)`. -/
theorem extend_owned (l : List (Nat × Value)) (o : List Char) :
    Process.extend (.Owned o) l = some (.Owned (o ++ appendedOf l)) := by
  induction l generalizing o with
  | nil => simp [extend_nil, appendedOf]
  | cons v rest ih =>
    obtain ⟨i, w⟩ := v
    cases w with
    | Char c =>
      rw [extend_cons_some _ _ _ _ (process_owned_char o i c), ih]
      simp [appendedOf]
    | Str s =>
      rw [extend_cons_some _ _ _ _ (process_owned_str o s i), ih]
      simp [appendedOf]

theorem extend_cons_none (p : Process) (v : Nat × Value)
    (rest : List (Nat × Value)) (h : p.process v = none) :
    Process.extend p (v :: rest) = none := by
  rw [extend_cons, h]

/-- While every decision is `Keep`, the accumulator never leaves
`Borrowed` and the reference is untouched. -/
theorem extend_keep (s : List Char) (l : List (Nat × Value))
    (h : ∀ x ∈ l, x.2.isKeep = true) :
    Process.extend (.Borrowed s) l = some (.Borrowed s) := by
  induction l with
  | nil => rfl
  | cons v rest ih =>
    obtain ⟨i, w⟩ := v
    cases w with
    | Char c =>
      rw [extend_cons_some _ _ _ _ (process_borrowed_char s i c)]
      exact ih (fun x hx => h x (List.mem_cons_of_mem _ hx))
    | Str t =>
      have := h (i, Value.Str t) (List.mem_cons_self _ _)
      simp [Value.isKeep] at this

theorem charIndicesFrom_mem (s : List Char) (i : Nat) (x : Nat × Char)
    (hx : x ∈ charIndicesFrom i s) : x.2 ∈ s := by
  induction s generalizing i with
  | nil => simp [charIndicesFrom] at hx
  | cons c cs ih =>
    rw [charIndicesFrom] at hx
    rcases List.mem_cons.mp hx with h | h
    · subst h
      exact List.mem_cons_self _ _
    · exact List.mem_cons_of_mem _ (ih _ h)

/-- Once a substitution happens, the final state is owned: extending from
`Borrowed` either saw only `Keep` decisions or ends up `Owned`. -/
theorem extend_borrowed_inv (l : List (Nat × Value)) :
    ∀ (b : List Char) (p : Process),
      Process.extend (.Borrowed b) l = some p →
      (∀ x ∈ l, x.2.isKeep = true) ∨ ∃ t, p = .Owned t := by
  induction l with
  | nil =>
    intro b p h
    left
    intro x hx
    exact absurd hx (List.not_mem_nil x)
  | cons v rest ih =>
    intro b p h
    obtain ⟨i, w⟩ := v
    cases w with
    | Char c =>
      rw [extend_cons_some _ _ _ _ (process_borrowed_char b i c)] at h
      rcases ih b p h with hk | ho
      · left
        intro x hx
        rcases List.mem_cons.mp hx with hx | hx
        · subst hx
          rfl
        · exact hk x hx
      · right
        exact ho
    | Str s =>
      cases hbt : byteTake b i with
      | none =>
        have hp : Process.process (.Borrowed b) (i, .Str s) = none := by
          rw [process_borrowed_str, hbt]
          rfl
        rw [extend_cons_none _ _ _ hp] at h
        exact absurd h (by simp)
      | some r =>
        have hp : Process.process (.Borrowed b) (i, .Str s) =
            some (.Owned (r ++ s)) := by
          rw [process_borrowed_str, hbt]
          rfl
        rw [extend_cons_some _ _ _ _ hp, extend_owned] at h
        right
        injection h with h2
        exact ⟨r ++ s ++ appendedOf rest, h2.symm⟩

theorem charIndicesFrom_getElem? (s : List Char) :
    ∀ (k i : Nat),
      (charIndicesFrom i s)[k]? =
        (s[k]?).map (fun c => (i + utf8Len (s.take k), c)) := by
  induction s with
  | nil => intro k i; simp [charIndicesFrom]
  | cons c cs ih =>
    intro k i
    cases k with
    | zero => simp [charIndicesFrom, utf8Len_nil]
    | succ k =>
      rw [charIndicesFrom]
      simp only [List.getElem?_cons_succ, List.take_succ_cons, utf8Len_cons]
      rw [ih]
      simp [Nat.add_assoc]

theorem dispatch_for_attribute_keep (c : Char) (extra : Extra)
    (hfix : isAttrEscaped c = false) (hex : extra c = none) :
    dispatch_for_attribute c extra = .Char c := by
  simp only [isAttrEscaped, Bool.or_eq_false_iff, decide_eq_false_iff_not] at hfix
  obtain ⟨⟨⟨⟨⟨⟨h1, h2⟩, h3⟩, h4⟩, h5⟩, h6⟩, h7⟩ := hfix
  simp [dispatch_for_attribute, h1, h2, h3, h4, h5, h6, h7, hex]

theorem dispatch_for_pcdata_keep (c : Char) (extra : Extra)
    (hfix : isPcdataEscaped c = false) (hex : extra c = none) :
    dispatch_for_pcdata c extra = .Char c := by
  simp only [isPcdataEscaped, Bool.or_eq_false_iff, decide_eq_false_iff_not] at hfix
  obtain ⟨h1, h2⟩ := hfix
  simp [dispatch_for_pcdata, h1, h2, hex]

theorem dispatch_for_attribute_eq_classify (c : Char) (extra : Extra) :
    dispatch_for_attribute c extra = classify c .Attribute extra := by
  by_cases h1 : c = '<'
  · subst h1; rfl
  by_cases h2 : c = '>'
  · subst h2; rfl
  by_cases h3 : c = '"'
  · subst h3; rfl
  by_cases h4 : c = '\''
  · subst h4; rfl
  by_cases h5 : c = '&'
  · subst h5; rfl
  by_cases h6 : c = '\n'
  · subst h6; rfl
  by_cases h7 : c = '\r'
  · subst h7; rfl
  have e1 := beq_eq_false_iff_ne.mpr h1
  have e2 := beq_eq_false_iff_ne.mpr h2
  have e3 := beq_eq_false_iff_ne.mpr h3
  have e4 := beq_eq_false_iff_ne.mpr h4
  have e5 := beq_eq_false_iff_ne.mpr h5
  have e6 := beq_eq_false_iff_ne.mpr h6
  have e7 := beq_eq_false_iff_ne.mpr h7
  simp [dispatch_for_attribute, classify, fixedSubs, List.lookup,
    h1, h2, h3, h4, h5, h6, h7, e1, e2, e3, e4, e5, e6, e7]

theorem dispatch_for_pcdata_eq_classify (c : Char) (extra : Extra) :
    dispatch_for_pcdata c extra = classify c .PCDATA extra := by
  by_cases h1 : c = '<'
  · subst h1; rfl
  by_cases h2 : c = '&'
  · subst h2; rfl
  have e1 := beq_eq_false_iff_ne.mpr h1
  have e2 := beq_eq_false_iff_ne.mpr h2
  simp [dispatch_for_pcdata, classify, fixedSubs, List.lookup, h1, h2, e1, e2]

/-- The driver never hits the slicing panic: starting `Borrowed` on the full
input, every offset fed in is a character boundary of it. -/
theorem extend_escape_isSome (d : Char → Extra → Value) (extra : Extra) :
    ∀ (b a : List Char),
      (Process.extend (.Borrowed (a ++ b))
        ((charIndicesFrom (utf8Len a) b).map
          (fun ic => (ic.1, d ic.2 extra)))).isSome = true := by
  intro b
  induction b with
  | nil =>
    intro a
    simp [charIndicesFrom, extend_nil]
  | cons c cs ih =>
    intro a
    rw [charIndicesFrom, List.map_cons]
    cases hd : d c extra with
    | Char c0 =>
      have hp : Process.process (.Borrowed (a ++ c :: cs))
          ((utf8Len a, c).1, Value.Char c0) =
          some (.Borrowed (a ++ c :: cs)) := rfl
      rw [extend_cons_some _ _ _ _ hp]
      have h2 := ih (a ++ [c])
      have hl : utf8Len (a ++ [c]) = utf8Len a + c.utf8Size := by
        rw [utf8Len_append, utf8Len_cons, utf8Len_nil]
        omega
      rw [hl, List.append_assoc, List.singleton_append] at h2
      exact h2
    | Str s0 =>
      have hp : Process.process (.Borrowed (a ++ c :: cs))
          ((utf8Len a, c).1, Value.Str s0) =
          some (.Owned (a ++ s0)) := by
        show Process.process (.Borrowed (a ++ c :: cs)) (utf8Len a, .Str s0) = _
        rw [process_borrowed_str, byteTake_boundary]
        rfl
      rw [extend_cons_some _ _ _ _ hp, extend_owned]
      rfl

/-! ### Claim theorems -/

/-- C1: an input containing none of the context's fixed escape characters
and no character of the extra mapping is returned as the `Borrowed` variant
holding the original input unchanged, for both `escape_str_attribute` and
`escape_str_pcdata`. -/
theorem no_escape_identity (s : List Char) (extra : Extra) :
    ((∀ c ∈ s, isAttrEscaped c = false ∧ extra c = none) →
      escape_str_attribute s extra = some (Cow.Borrowed s)) ∧
    ((∀ c ∈ s, isPcdataEscaped c = false ∧ extra c = none) →
      escape_str_pcdata s extra = some (Cow.Borrowed s)) := by
  constructor
  · intro h
    have hKeep : ∀ x ∈ (char_indices s).map
        (fun ic => (ic.1, dispatch_for_attribute ic.2 extra)),
        x.2.isKeep = true := by
      intro x hx
      obtain ⟨ic, hic, hmap⟩ := List.mem_map.mp hx
      obtain ⟨h1, h2⟩ := h ic.2 (charIndicesFrom_mem s 0 ic hic)
      rw [← hmap]
      show (dispatch_for_attribute ic.2 extra).isKeep = true
      rw [dispatch_for_attribute_keep ic.2 extra h1 h2]
      rfl
    unfold escape_str_attribute escape_str
    rw [extend_keep s _ hKeep]
    rfl
  · intro h
    have hKeep : ∀ x ∈ (char_indices s).map
        (fun ic => (ic.1, dispatch_for_pcdata ic.2 extra)),
        x.2.isKeep = true := by
      intro x hx
      obtain ⟨ic, hic, hmap⟩ := List.mem_map.mp hx
      obtain ⟨h1, h2⟩ := h ic.2 (charIndicesFrom_mem s 0 ic hic)
      rw [← hmap]
      show (dispatch_for_pcdata ic.2 extra).isKeep = true
      rw [dispatch_for_pcdata_keep ic.2 extra h1 h2]
      rfl
    unfold escape_str_pcdata escape_str
    rw [extend_keep s _ hKeep]
    rfl

theorem no_escape_identity_witness :
    escape_str_attribute "abc".data (fun _ => none) =
      some (Cow.Borrowed "abc".data) ∧
    escape_str_pcdata "abc".data (fun _ => none) =
      some (Cow.Borrowed "abc".data) := by
  have h := no_escape_identity "abc".data (fun _ => none)
  exact ⟨h.1 (by decide), h.2 (by decide)⟩

/-- C2: the attribute classifier replaces exactly the seven fixed characters
with their entities (this is `classify` at context `Attribute`), and on any
other character falls back to the extra mapping, keeping the character when
the mapping has no entry. -/
theorem attribute_classifier_spec (c : Char) (extra : Extra) :
    dispatch_for_attribute c extra = classify c Context.Attribute extra ∧
    dispatch_for_attribute '<' extra = Value.Str "&lt;".data ∧
    dispatch_for_attribute '>' extra = Value.Str "&gt;".data ∧
    dispatch_for_attribute '"' extra = Value.Str "&quot;".data ∧
    dispatch_for_attribute '\'' extra = Value.Str "&apos;".data ∧
    dispatch_for_attribute '&' extra = Value.Str "&amp;".data ∧
    dispatch_for_attribute '\n' extra = Value.Str "&#xA;".data ∧
    dispatch_for_attribute '\r' extra = Value.Str "&#xD;".data ∧
    (isAttrEscaped c = false →
      dispatch_for_attribute c extra =
        (match extra c with
         | some v => Value.Str v
         | none => Value.Char c)) := by
  refine ⟨dispatch_for_attribute_eq_classify c extra,
    rfl, rfl, rfl, rfl, rfl, rfl, rfl, ?_⟩
  intro hfix
  simp only [isAttrEscaped, Bool.or_eq_false_iff, decide_eq_false_iff_not] at hfix
  obtain ⟨⟨⟨⟨⟨⟨h1, h2⟩, h3⟩, h4⟩, h5⟩, h6⟩, h7⟩ := hfix
  simp [dispatch_for_attribute, h1, h2, h3, h4, h5, h6, h7]

theorem attribute_classifier_spec_witness :
    dispatch_for_attribute 'x' (fun _ => none) = Value.Char 'x' := by
  have h := attribute_classifier_spec 'x' (fun _ => none)
  exact h.2.2.2.2.2.2.2.2 (by decide)

/-- C3: the PCDATA classifier replaces only `<` and `&` as fixed
substitutions (this is `classify` at context `PCDATA`), falls back to the
extra mapping otherwise, and in particular `>` is escaped under the
attribute context but passed through under PCDATA (shown both at the
classifier and end-to-end on `"a>b"`). -/
theorem pcdata_classifier_spec (c : Char) (extra : Extra) :
    dispatch_for_pcdata c extra = classify c Context.PCDATA extra ∧
    dispatch_for_pcdata '<' extra = Value.Str "&lt;".data ∧
    dispatch_for_pcdata '&' extra = Value.Str "&amp;".data ∧
    (isPcdataEscaped c = false →
      dispatch_for_pcdata c extra =
        (match extra c with
         | some v => Value.Str v
         | none => Value.Char c)) ∧
    dispatch_for_attribute '>' extra = Value.Str "&gt;".data ∧
    (extra '>' = none → dispatch_for_pcdata '>' extra = Value.Char '>') ∧
    escape_str_attribute "a>b".data (fun _ => none) =
      some (Cow.Owned "a&gt;b".data) ∧
    escape_str_pcdata "a>b".data (fun _ => none) =
      some (Cow.Borrowed "a>b".data) := by
  refine ⟨dispatch_for_pcdata_eq_classify c extra, rfl, rfl, ?_, rfl, ?_,
    by decide, by decide⟩
  · intro hfix
    simp only [isPcdataEscaped, Bool.or_eq_false_iff,
      decide_eq_false_iff_not] at hfix
    obtain ⟨h1, h2⟩ := hfix
    simp [dispatch_for_pcdata, h1, h2]
  · intro hex
    exact dispatch_for_pcdata_keep '>' extra (by decide) hex

theorem pcdata_classifier_spec_witness :
    dispatch_for_pcdata '.' (fun _ => none) = Value.Char '.' ∧
    dispatch_for_pcdata '>' (fun _ => none) = Value.Char '>' := by
  have h := pcdata_classifier_spec '.' (fun _ => none)
  exact ⟨h.2.2.2.1 (by decide), h.2.2.2.2.2.1 (by decide)⟩

/-- C4: for a character in the context's fixed escape set, both classifiers
return the fixed built-in replacement even when the extra mapping also
contains that character — the custom mapping is never used for it. -/
theorem fixed_set_precedence (c : Char) (extra : Extra) (v r : List Char)
    (hv : extra c = some v) :
    ((fixedSubs Context.Attribute).lookup c = some r →
      dispatch_for_attribute c extra = Value.Str r) ∧
    ((fixedSubs Context.PCDATA).lookup c = some r →
      dispatch_for_pcdata c extra = Value.Str r) := by
  constructor
  · intro h
    rw [dispatch_for_attribute_eq_classify]
    unfold classify
    rw [h]
  · intro h
    rw [dispatch_for_pcdata_eq_classify]
    unfold classify
    rw [h]

theorem fixed_set_precedence_witness :
    dispatch_for_attribute '<'
      (fun x => if x = '<' then some "custom".data else none) =
      Value.Str "&lt;".data ∧
    dispatch_for_pcdata '<'
      (fun x => if x = '<' then some "custom".data else none) =
      Value.Str "&lt;".data := by
  have h := fixed_set_precedence '<'
    (fun x => if x = '<' then some "custom".data else none)
    "custom".data "&lt;".data (by decide)
  exact ⟨h.1 (by decide), h.2 (by decide)⟩

/-- C5: the accumulator moves `Borrowed → Owned` exactly at the first
`Replace` and never back: a `Keep` on `Borrowed` is a no-op, a `Replace` on
`Borrowed` yields an owned buffer ending in the replacement, once `Owned`
every decision appends and the state stays `Owned`, and the final state is
still the untouched `Borrowed` reference iff every decision was a `Keep`. -/
theorem accumulator_one_way_transition (b o s : List Char) (i : Nat)
    (c : Char) (l : List (Nat × Value)) :
    Process.process (.Borrowed b) (i, .Char c) = some (.Borrowed b) ∧
    (∀ q, Process.process (.Borrowed b) (i, .Str s) = some q →
      ∃ r, q = Process.Owned (r ++ s)) ∧
    Process.process (.Owned o) (i, .Char c) = some (.Owned (o ++ [c])) ∧
    Process.process (.Owned o) (i, .Str s) = some (.Owned (o ++ s)) ∧
    (∀ p, Process.extend (.Owned o) l = some p →
      ∃ t, p = Process.Owned (o ++ t)) ∧
    (Process.extend (.Borrowed b) l = some (.Borrowed b) ↔
      ∀ x ∈ l, x.2.isKeep = true) := by
  refine ⟨process_borrowed_char b i c, ?_, process_owned_char o i c,
    process_owned_str o s i, ?_, ?_, ?_⟩
  · intro q hq
    rw [process_borrowed_str] at hq
    cases hbt : byteTake b i with
    | none => rw [hbt] at hq; exact absurd hq (by simp)
    | some r =>
      rw [hbt] at hq
      refine ⟨r, ?_⟩
      injection hq with hq2
      exact hq2.symm
  · intro p hp
    rw [extend_owned] at hp
    injection hp with hp2
    exact ⟨appendedOf l, hp2.symm⟩
  · intro h
    rcases extend_borrowed_inv l b (.Borrowed b) h with hk | ⟨t, ht⟩
    · exact hk
    · exact Process.noConfusion ht
  · exact extend_keep b l

theorem accumulator_one_way_transition_witness :
    Process.extend (.Borrowed "ab".data) [(0, .Char 'a'), (1, .Char 'b')] =
      some (.Borrowed "ab".data) := by
  have h := accumulator_one_way_transition "ab".data "x".data "&lt;".data 0 'a'
      [(0, .Char 'a'), (1, .Char 'b')]
  exact h.2.2.2.2.2.mpr (by decide)

/-- C6: the byte offset paired with the `k`-th character by the driver is
the UTF-8 length of the first `k` characters — a character boundary — so the
prefix slice taken at the first replacement is exactly those `k` whole
characters, and at the byte level taking that many bytes of the encoded
input is the encoding of those whole characters (no multi-byte character is
ever split). -/
theorem offsets_are_char_boundaries (s : List Char) (k : Nat) (c : Char)
    (h : s[k]? = some c) :
    (char_indices s)[k]? = some (utf8Len (s.take k), c) ∧
    byteTake s (utf8Len (s.take k)) = some (s.take k) ∧
    (utf8Encode s).take (utf8Len (s.take k)) = utf8Encode (s.take k) := by
  refine ⟨?_, ?_, ?_⟩
  · rw [char_indices, charIndicesFrom_getElem?, h]
    simp
  · have hb := byteTake_boundary (s.take k) (s.drop k)
    rw [List.take_append_drop] at hb
    exact hb
  · have he := utf8Encode_append (s.take k) (s.drop k)
    rw [List.take_append_drop] at he
    rw [he, ← utf8Encode_length (s.take k)]
    exact List.take_left _ _

theorem offsets_are_char_boundaries_witness :
    (char_indices "☃<".data)[1]? =
      some (utf8Len ("☃<".data.take 1), '<') ∧
    byteTake "☃<".data (utf8Len ("☃<".data.take 1)) =
      some ("☃<".data.take 1) ∧
    (utf8Encode "☃<".data).take (utf8Len ("☃<".data.take 1)) =
      utf8Encode ("☃<".data.take 1) :=
  offsets_are_char_boundaries "☃<".data 1 '<' (by decide)

/-- C7: a `Replace` arriving at the boundary offset after `k` characters
while still `Borrowed` produces an owned buffer holding exactly the `k`-character
prefix followed by the replacement, and the capacity requested at that moment
(the whole input's byte length plus the replacement's) is at least the
scanned prefix length plus the replacement length. -/
theorem first_replace_copies_prefix (b s : List Char) (k : Nat) :
    Process.process (.Borrowed b) (utf8Len (b.take k), .Str s) =
      some (.Owned (b.take k ++ s)) ∧
    utf8Len (b.take k) + utf8Len s ≤ withCapacityRequest b s := by
  constructor
  · rw [process_borrowed_str]
    have hb := byteTake_boundary (b.take k) (b.drop k)
    rw [List.take_append_drop] at hb
    rw [hb]
    rfl
  · unfold withCapacityRequest
    have h2 := utf8Len_append (b.take k) (b.drop k)
    rw [List.take_append_drop] at h2
    omega

/-- C8: the two public entry points are total — for every character sequence
and every extra mapping they produce a defined result (the `Option` modelling
the slicing panic is always `some`). -/
theorem escape_total (s : List Char) (extra : Extra) :
    (escape_str_attribute s extra).isSome = true ∧
    (escape_str_pcdata s extra).isSome = true := by
  constructor
  · unfold escape_str_attribute escape_str
    have h := extend_escape_isSome dispatch_for_attribute extra s []
    rw [List.nil_append, utf8Len_nil] at h
    rw [char_indices]
    obtain ⟨p, hp⟩ := Option.isSome_iff_exists.mp h
    rw [hp]
    rfl
  · unfold escape_str_pcdata escape_str
    have h := extend_escape_isSome dispatch_for_pcdata extra s []
    rw [List.nil_append, utf8Len_nil] at h
    rw [char_indices]
    obtain ⟨p, hp⟩ := Option.isSome_iff_exists.mp h
    rw [hp]
    rfl

/-- C9: escaping is not idempotent: `"&"` escapes to `"&amp;"`, and escaping
that output again yields `"&amp;amp;"`, in both contexts. -/
theorem escape_not_idempotent :
    escape_str_attribute ['&'] (fun _ => none) =
      some (Cow.Owned "&amp;".data) ∧
    escape_str_attribute "&amp;".data (fun _ => none) =
      some (Cow.Owned "&amp;amp;".data) ∧
    escape_str_pcdata ['&'] (fun _ => none) =
      some (Cow.Owned "&amp;".data) ∧
    escape_str_pcdata "&amp;".data (fun _ => none) =
      some (Cow.Owned "&amp;amp;".data) ∧
    "&amp;amp;".data ≠ "&amp;".data := by
  refine ⟨by decide, by decide, by decide, by decide, by decide⟩

/-- C10: replacement strings — built-in entities and extra-mapping values —
are appended to the output verbatim, never re-classified: appending to an
owned buffer concatenates the replacement unchanged, the first transition
appends it unchanged after the slice, and an extra-mapping value containing
`<` and `&` appears literally in the final output. -/
theorem replacements_appended_verbatim (o b s : List Char) (i : Nat) :
    Process.process (.Owned o) (i, .Str s) = some (.Owned (o ++ s)) ∧
    (∀ r, byteTake b i = some r →
      Process.process (.Borrowed b) (i, .Str s) = some (.Owned (r ++ s))) ∧
    escape_str_attribute ['.']
      (fun c => if c = '.' then some "<&".data else none) =
      some (Cow.Owned "<&".data) := by
  refine ⟨process_owned_str o s i, ?_, by decide⟩
  intro r hr
  rw [process_borrowed_str, hr]
  rfl

theorem replacements_appended_verbatim_witness :
    Process.process (.Borrowed "a".data) (1, .Str "<&".data) =
      some (.Owned ("a".data ++ "<&".data)) :=
  (replacements_appended_verbatim [] "a".data "<&".data 1).2.1
    "a".data (by decide)

end XmlEscape
